import Mathlib

/-!
# Verification of the sp500-updater backend

Shallow embedding of `src/backend/main.py` and `src/backend/financials_provider.py`.

Modelling conventions:
* A Python/JSON scalar cell is modelled as `Val := Option String`
  (`none` is Python `None` / pandas NaN after the `pd.isna` check; the canonical
  records built by `fetch_sp500_list` only hold nullable strings).
* A Python dict record is an association list `PyRecord := List (String × Val)`;
  `getOpt` models presence (`f in r` together with `r[f]`), `dget` models
  `r.get(f)` (missing field reads as `None`).
* Python dict equality (`o != n` in `log_changes`) is extensional: same key set
  and same value at every key; `dictEqB` below captures exactly that.
* Wall-clock timestamps (`datetime.now()`) are external and carried by no claim,
  so the `ts` / `as_of` fields are omitted from the embedded structures.
-/

/-- A cell or field value: `none` models Python `None` (or JSON null), `some s` a string. -/
abbrev Val := Option String

/-- A Python dict record: association list from field name to nullable value. -/
abbrev PyRecord := List (String × Val)

/-- Python membership plus indexing: `some v` when field `f` is present with stored
value `v` (which may itself be `none`, i.e. a present-but-null field), `none` when
the field is missing. -/
def getOpt (r : PyRecord) (f : String) : Option Val :=
  (r.find? (fun p => p.1 == f)).map (fun p => p.2)

/-- Python `r.get(f)`: a missing field reads as `None`. -/
def dget (r : PyRecord) (f : String) : Val :=
  match getOpt r f with
  | some v => v
  | none => none

/-- The list of field names of a record (Python `r.keys()`). -/
def keysOf (r : PyRecord) : List String := r.map (fun p => p.1)

/-- Python dict equality: two dicts are equal iff they have the same key set and
equal values at every key.  Quantifying `getOpt` over the union of the key lists
captures exactly that (a key present in only one side yields `some v ≠ none`). -/
def dictEqB (o n : PyRecord) : Bool :=
  (keysOf o ++ keysOf n).all (fun f => getOpt o f == getOpt n f)

/-- Key list of a key-to-record map (Python `set(old_map)` etc.; the key lists
built by `buildMap` are duplicate-free, so the list is the set). -/
def mkeys (m : List (Val × PyRecord)) : List Val := m.map (fun p => p.1)

/-- Key-to-record map built by the dict comprehension
`{r[key]: r for r in data if key in r}` in `log_changes` (lines 67–68 of main.py).
Later records overwrite earlier ones, so we recurse from the right and keep a
binding only when no later record already produced that key: the surviving
record for each key is the last one in `data` carrying it, and the key list is
duplicate-free by construction. -/
def buildMap (key : String) : List PyRecord → List (Val × PyRecord)
  | [] => []
  | r :: rest =>
    let m := buildMap key rest
    match getOpt r key with
    | none => m
    | some v => if v ∈ mkeys m then m else (v, r) :: m

/-- Lookup in a key-to-record map. -/
def mlookup (m : List (Val × PyRecord)) (k : Val) : Option PyRecord :=
  (m.find? (fun p => p.1 == k)).map (fun p => p.2)

/-- Lexicographic code-point comparison on character lists: exactly Python's
string `<=` (strings compare by Unicode code points). -/
def lexLeB : List Char → List Char → Bool
  | [], _ => true
  | _ :: _, [] => false
  | a :: as, b :: bs =>
    if a.toNat < b.toNat then true
    else if b.toNat < a.toNat then false
    else lexLeB as bs

/-- Python string `<=` (lexicographic by code point). -/
def strLeB (a b : String) : Bool := lexLeB a.toList b.toList

/-- Order on nullable strings used to embed Python `sorted` on key lists
(total on the values that actually occur: the theorems below restrict key
values to strings, where this is exactly Python's lexicographic order). -/
def valLeB (a b : Val) : Bool :=
  match a, b with
  | none, _ => true
  | some _, none => false
  | some x, some y => strLeB x y

/-- Python `sorted` on a list of key values (the lists sorted by `log_changes`
are duplicate-free, so any correct sort produces the unique sorted arrangement,
which is what `sorted` returns). -/
def sortVals (l : List Val) : List Val :=
  List.insertionSort (fun a b => valLeB a b = true) l

/-- Python `sorted` on a list of field names. -/
def sortStrs (l : List String) : List String :=
  List.insertionSort (fun a b => strLeB a b = true) l

/-- First-occurrence deduplication, used to embed the set union
`set(o.keys()) | set(n.keys())` (order is irrelevant: the result is sorted). -/
def dedupAux (seen : List String) : List String → List String
  | [] => []
  | a :: l => if a ∈ seen then dedupAux seen l else a :: dedupAux (a :: seen) l

def dedupFirst (l : List String) : List String := dedupAux [] l

/-- Field-level diff of two records present under the same key
(lines 83–88 of main.py): iterate the sorted union of the two key sets and keep
every field whose `get` values differ, recording the old/new pair. -/
def changesFor (o n : PyRecord) : List (String × Val × Val) :=
  ((sortStrs (dedupFirst (keysOf o ++ keysOf n))).filter
      (fun f => decide (dget o f ≠ dget n f))).map (fun f => (f, dget o f, dget n f))

/-- Intersection `old_keys & new_keys` (iterated in old-map key order; Python
iterates a hash set in unspecified order, and no claim depends on the order). -/
def interKeys (om nm : List (Val × PyRecord)) : List Val :=
  (mkeys om).filter (fun k => decide (k ∈ mkeys nm))

/-- The JSON line written to the change log by `log_changes` (lines 93–99 of
main.py); the wall-clock `ts` field is omitted.  `updated` pairs each symbol
with its field-level changes, exactly as the
`[{"symbol": s, "changes": updated_detail[s]} for s in updated]` comprehension
does; the compact summary returned to the caller is
`(added, removed, updated.map (·.1))`. -/
structure ChangeEvent where
  countsOld : Nat
  countsNew : Nat
  added : List Val
  removed : List Val
  updated : List (Val × List (String × Val × Val))
deriving Repr, DecidableEq

/-- Embedding of `log_changes` (lines 60–105 of main.py): set-level diffs plus
field-level updates. -/
def log_changes (old_data new_data : List PyRecord) (key : String) : ChangeEvent :=
  let om := buildMap key old_data
  let nm := buildMap key new_data
  let added := sortVals ((mkeys nm).filter (fun k => decide (k ∉ mkeys om)))
  let removed := sortVals ((mkeys om).filter (fun k => decide (k ∉ mkeys nm)))
  let upd := (interKeys om nm).filterMap (fun k =>
    match mlookup om k, mlookup nm k with
    | some o, some n => if dictEqB o n then none else some (k, changesFor o n)
    | _, _ => none)
  { countsOld := old_data.length
    countsNew := new_data.length
    added := added
    removed := removed
    updated := upd }

/-! ## Basic lemmas about the dict model -/

theorem dictEqB_refl (r : PyRecord) : dictEqB r r = true := by
  unfold dictEqB
  rw [List.all_eq_true]
  intro f _
  simp

theorem mem_sortVals {l : List Val} {v : Val} : v ∈ sortVals l ↔ v ∈ l := by
  unfold sortVals
  exact List.mem_insertionSort _

theorem mem_sortStrs {l : List String} {s : String} : s ∈ sortStrs l ↔ s ∈ l := by
  unfold sortStrs
  exact List.mem_insertionSort _

theorem mem_dedupAux {l seen : List String} {s : String} :
    s ∈ dedupAux seen l ↔ s ∈ l ∧ s ∉ seen := by
  induction l generalizing seen with
  | nil => simp [dedupAux]
  | cons a l ih =>
    simp only [dedupAux]
    by_cases ha : a ∈ seen
    · rw [if_pos ha, ih]
      by_cases hsa : s = a
      · subst hsa; simp [ha]
      · simp [hsa]
    · rw [if_neg ha]
      by_cases hsa : s = a
      · subst hsa; simp [ha]
      · simp only [List.mem_cons, ih, List.mem_cons]
        simp [hsa]

theorem mem_dedupFirst {l : List String} {s : String} : s ∈ dedupFirst l ↔ s ∈ l := by
  unfold dedupFirst
  rw [mem_dedupAux]
  simp

/-- Membership in the keys of a built map characterises the symbols occurring in
the record list with the key field present. -/
theorem mem_mkeys_buildMap {key : String} {data : List PyRecord} {v : Val} :
    v ∈ mkeys (buildMap key data) ↔ ∃ r ∈ data, getOpt r key = some v := by
  induction data with
  | nil => simp [buildMap, mkeys]
  | cons r rest ih =>
    cases hr : getOpt r key with
    | none =>
      simp only [buildMap, hr]
      rw [ih]
      constructor
      · rintro ⟨s, hs, hv⟩; exact ⟨s, List.Mem.tail _ hs, hv⟩
      · rintro ⟨s, hs, hv⟩
        rcases List.mem_cons.mp hs with h | h
        · subst h; rw [hr] at hv; cases hv
        · exact ⟨s, h, hv⟩
    | some w =>
      simp only [buildMap, hr]
      by_cases hc : w ∈ mkeys (buildMap key rest)
      · rw [if_pos hc, ih]
        constructor
        · rintro ⟨s, hs, hv⟩; exact ⟨s, List.Mem.tail _ hs, hv⟩
        · rintro ⟨s, hs, hv⟩
          rcases List.mem_cons.mp hs with h | h
          · subst h; rw [hr] at hv
            have hw : w = v := Option.some.inj hv
            subst hw
            exact ih.mp hc
          · exact ⟨s, h, hv⟩
      · rw [if_neg hc]
        show v ∈ mkeys ((w, r) :: buildMap key rest) ↔ _
        simp only [mkeys, List.map_cons, List.mem_cons]
        rw [show ((buildMap key rest).map fun p => p.1) = mkeys (buildMap key rest) from rfl,
          ih]
        constructor
        · rintro (h | ⟨s, hs, hv⟩)
          · exact ⟨r, Or.inl rfl, by rw [hr, h]⟩
          · exact ⟨s, Or.inr hs, hv⟩
        · rintro ⟨s, hs, hv⟩
          rcases hs with h | h
          · subst h; rw [hr] at hv; exact Or.inl (Option.some.inj hv).symm
          · exact Or.inr ⟨s, h, hv⟩

/-- A successful map lookup returns a record from the underlying data, carrying
the looked-up key value. -/
theorem mlookup_buildMap_mem {key : String} {data : List PyRecord} {v : Val}
    {o : PyRecord} (h : mlookup (buildMap key data) v = some o) :
    o ∈ data ∧ getOpt o key = some v := by
  induction data with
  | nil => simp [buildMap, mlookup] at h
  | cons r rest ih =>
    cases hr : getOpt r key with
    | none =>
      simp only [buildMap, hr] at h
      obtain ⟨ho, hv⟩ := ih h
      exact ⟨List.Mem.tail _ ho, hv⟩
    | some w =>
      simp only [buildMap, hr] at h
      by_cases hc : w ∈ mkeys (buildMap key rest)
      · rw [if_pos hc] at h
        obtain ⟨ho, hv⟩ := ih h
        exact ⟨List.Mem.tail _ ho, hv⟩
      · rw [if_neg hc] at h
        unfold mlookup at h
        rw [List.find?_cons] at h
        cases hwv : ((w, r).1 == v)
        · simp only [hwv] at h
          obtain ⟨ho, hv⟩ := ih h
          exact ⟨List.Mem.tail _ ho, hv⟩
        · simp only [hwv, Option.map_some'] at h
          have hro : r = o := Option.some.inj h
          subst hro
          refine ⟨List.mem_cons_self r rest, ?_⟩
          rw [hr]
          exact congrArg some (eq_of_beq hwv)

/-- Keys present in the map have a successful lookup. -/
theorem mlookup_isSome_of_mem {m : List (Val × PyRecord)} {v : Val}
    (h : v ∈ mkeys m) : ∃ o, mlookup m v = some o := by
  induction m with
  | nil => simp [mkeys] at h
  | cons p m ih =>
    unfold mlookup
    rw [List.find?_cons]
    cases hp : (p.1 == v)
    · simp only [hp]
      rcases List.mem_cons.mp h with h' | h'
      · have hv : p.1 = v := h'.symm
        rw [hv, beq_self_eq_true] at hp
        simp at hp
      · exact ih h'
    · exact ⟨p.2, by simp only [hp, Option.map_some']⟩

/-- The key values in order of occurrence (records lacking the field skipped). -/
def keyVals (key : String) (data : List PyRecord) : List Val :=
  data.filterMap (fun r => getOpt r key)

/-- Under unique keys, the map lookup returns exactly the record of the data set
carrying the key. -/
theorem mlookup_buildMap_of_uniq {key : String} {data : List PyRecord}
    (hu : (keyVals key data).Nodup) {v : Val} {r : PyRecord}
    (hr : r ∈ data) (hv : getOpt r key = some v) :
    mlookup (buildMap key data) v = some r := by
  induction data with
  | nil => cases hr
  | cons s rest ih =>
    cases hs : getOpt s key with
    | none =>
      simp only [buildMap, hs]
      have hu' : (keyVals key rest).Nodup := by
        unfold keyVals at hu ⊢
        rw [List.filterMap_cons, hs] at hu
        exact hu
      rcases List.mem_cons.mp hr with h | h
      · subst h; rw [hs] at hv; cases hv
      · exact ih hu' h
    | some w =>
      simp only [buildMap, hs]
      have hsplit : keyVals key (s :: rest) = w :: keyVals key rest := by
        unfold keyVals
        rw [List.filterMap_cons, hs]
      rw [hsplit] at hu
      have hw : w ∉ keyVals key rest := (List.nodup_cons.mp hu).1
      have hu' : (keyVals key rest).Nodup := (List.nodup_cons.mp hu).2
      have hnc : w ∉ mkeys (buildMap key rest) := by
        intro hc
        obtain ⟨t, ht, htv⟩ := mem_mkeys_buildMap.mp hc
        exact hw (List.mem_filterMap.mpr ⟨t, ht, htv⟩)
      rw [if_neg hnc]
      rcases List.mem_cons.mp hr with h | h
      · subst h
        rw [hs] at hv
        have hwv : w = v := Option.some.inj hv
        subst hwv
        unfold mlookup
        rw [List.find?_cons]
        simp only [beq_self_eq_true]
        rfl
      · have hvw : v ≠ w := by
          intro he
          subst he
          exact hw (List.mem_filterMap.mpr ⟨r, h, hv⟩)
        unfold mlookup
        rw [List.find?_cons]
        have hfalse : ((w, s).1 == v) = false := beq_eq_false_iff_ne.mpr (fun he => hvw he.symm)
        simp only [hfalse]
        exact ih hu' h

/-- A successful lookup pinpoints a binding of the map. -/
theorem mlookup_mem_pair {m : List (Val × PyRecord)} {k : Val} {o : PyRecord}
    (h : mlookup m k = some o) : (k, o) ∈ m := by
  unfold mlookup at h
  cases hf : m.find? (fun p => p.1 == k) with
  | none => rw [hf] at h; cases h
  | some p =>
    rw [hf] at h
    have hp : p.1 = k := by simpa using List.find?_some hf
    have hm : p ∈ m := List.mem_of_find?_eq_some hf
    have ho : p.2 = o := Option.some.inj h
    have : p = (k, o) := Prod.ext hp ho
    rw [this] at hm
    exact hm

/-- A successful lookup means the key occurs in the key list. -/
theorem mem_mkeys_of_mlookup {m : List (Val × PyRecord)} {k : Val} {o : PyRecord}
    (h : mlookup m k = some o) : k ∈ mkeys m := by
  have := mlookup_mem_pair h
  exact List.mem_map.mpr ⟨(k, o), this, rfl⟩

/-- A present field has a stored value. -/
theorem mem_keysOf_getOpt {r : PyRecord} {f : String} (h : f ∈ keysOf r) :
    ∃ w, getOpt r f = some w := by
  induction r with
  | nil => simp [keysOf] at h
  | cons p r ih =>
    unfold getOpt
    rw [List.find?_cons]
    cases hp : (p.1 == f)
    · rcases List.mem_cons.mp h with h' | h'
      · have hpf : p.1 = f := h'.symm
        rw [hpf, beq_self_eq_true] at hp
        simp at hp
      · simp only [hp]
        exact ih h'
    · exact ⟨p.2, by simp only [hp, Option.map_some']⟩

/-- A stored value means the field occurs in the key list. -/
theorem mem_keysOf_of_getOpt {r : PyRecord} {f : String} {w : Val}
    (h : getOpt r f = some w) : f ∈ keysOf r := by
  unfold getOpt at h
  cases hf : r.find? (fun p => p.1 == f) with
  | none => rw [hf] at h; cases h
  | some p =>
    have hp : p.1 = f := by simpa using List.find?_some hf
    have hm : p ∈ r := List.mem_of_find?_eq_some hf
    exact List.mem_map.mpr ⟨p, hm, hp⟩

/-! ## Characterisation of the diff outputs of `log_changes` -/

theorem mem_added_iff {old_data new_data : List PyRecord} {key : String} {v : Val} :
    v ∈ (log_changes old_data new_data key).added ↔
      v ∈ mkeys (buildMap key new_data) ∧ v ∉ mkeys (buildMap key old_data) := by
  unfold log_changes
  simp only [mem_sortVals, List.mem_filter, decide_eq_true_eq]

theorem mem_removed_iff {old_data new_data : List PyRecord} {key : String} {v : Val} :
    v ∈ (log_changes old_data new_data key).removed ↔
      v ∈ mkeys (buildMap key old_data) ∧ v ∉ mkeys (buildMap key new_data) := by
  unfold log_changes
  simp only [mem_sortVals, List.mem_filter, decide_eq_true_eq]

theorem mem_interKeys_iff {om nm : List (Val × PyRecord)} {k : Val} :
    k ∈ interKeys om nm ↔ k ∈ mkeys om ∧ k ∈ mkeys nm := by
  unfold interKeys
  simp [List.mem_filter]

theorem mem_updated_iff {old_data new_data : List PyRecord} {key : String}
    {e : Val × List (String × Val × Val)} :
    e ∈ (log_changes old_data new_data key).updated ↔
      ∃ o n, mlookup (buildMap key old_data) e.1 = some o ∧
        mlookup (buildMap key new_data) e.1 = some n ∧
        dictEqB o n = false ∧ e.2 = changesFor o n := by
  unfold log_changes
  simp only [List.mem_filterMap]
  constructor
  · rintro ⟨k, hk, hf⟩
    cases ho : mlookup (buildMap key old_data) k with
    | none =>
      simp only [ho] at hf
      exact Option.noConfusion hf
    | some o =>
      cases hn : mlookup (buildMap key new_data) k with
      | none =>
        simp only [ho, hn] at hf
        exact Option.noConfusion hf
      | some n =>
        simp only [ho, hn] at hf
        cases hd : dictEqB o n
        · rw [hd, if_neg (show ¬(false = true) by decide)] at hf
          have he : (k, changesFor o n) = e := Option.some.inj hf
          rw [← he]
          exact ⟨o, n, ho, hn, hd, rfl⟩
        · rw [hd, if_pos rfl] at hf
          cases hf
  · rintro ⟨o, n, ho, hn, hd, he⟩
    refine ⟨e.1, mem_interKeys_iff.mpr ⟨mem_mkeys_of_mlookup ho, mem_mkeys_of_mlookup hn⟩, ?_⟩
    simp only [ho, hn]
    rw [hd, if_neg (show ¬(false = true) by decide), ← he]

theorem mem_updSyms_iff {old_data new_data : List PyRecord} {key : String} {v : Val} :
    v ∈ (log_changes old_data new_data key).updated.map (fun e => e.1) ↔
      ∃ o n, mlookup (buildMap key old_data) v = some o ∧
        mlookup (buildMap key new_data) v = some n ∧ dictEqB o n = false := by
  rw [List.mem_map]
  constructor
  · rintro ⟨e, he, hv⟩
    obtain ⟨o, n, ho, hn, hd, _⟩ := mem_updated_iff.mp he
    rw [hv] at ho hn
    exact ⟨o, n, ho, hn, hd⟩
  · rintro ⟨o, n, ho, hn, hd⟩
    exact ⟨(v, changesFor o n), mem_updated_iff.mpr ⟨o, n, ho, hn, hd, rfl⟩, rfl⟩

theorem mem_changesFor_iff {o n : PyRecord} {c : String × Val × Val} :
    c ∈ changesFor o n ↔
      (c.1 ∈ keysOf o ∨ c.1 ∈ keysOf n) ∧ dget o c.1 ≠ dget n c.1 ∧
        c.2.1 = dget o c.1 ∧ c.2.2 = dget n c.1 := by
  unfold changesFor
  rw [List.mem_map]
  constructor
  · rintro ⟨f, hf, hc⟩
    obtain ⟨hmem, hne⟩ := List.mem_filter.mp hf
    rw [mem_sortStrs, mem_dedupFirst, List.mem_append] at hmem
    rw [← hc]
    exact ⟨hmem, of_decide_eq_true hne, rfl, rfl⟩
  · rintro ⟨hmem, hne, h1, h2⟩
    refine ⟨c.1, List.mem_filter.mpr ⟨?_, decide_eq_true hne⟩, ?_⟩
    · rw [mem_sortStrs, mem_dedupFirst, List.mem_append]
      exact hmem
    · rw [← h1, ← h2]

/-- Same key set, as a decidable boolean (holds in particular for two canonical
records, which both carry exactly the six canonical fields). -/
def sameKeySetB (o n : PyRecord) : Bool :=
  (keysOf o).all (fun f => decide (f ∈ keysOf n)) &&
    (keysOf n).all (fun f => decide (f ∈ keysOf o))

/-- Two dict-unequal records with the same key set produce a nonempty field diff. -/
theorem changesFor_ne_nil {o n : PyRecord} (hk : sameKeySetB o n = true)
    (hne : dictEqB o n = false) : changesFor o n ≠ [] := by
  intro hnil
  have hall : ∀ f ∈ sortStrs (dedupFirst (keysOf o ++ keysOf n)),
      ¬(decide (dget o f ≠ dget n f) = true) := by
    intro f hf hd
    have : (f, dget o f, dget n f) ∈ changesFor o n := by
      unfold changesFor
      exact List.mem_map.mpr ⟨f, List.mem_filter.mpr ⟨hf, hd⟩, rfl⟩
    rw [hnil] at this
    cases this
  have hk' : (∀ f ∈ keysOf o, f ∈ keysOf n) ∧ (∀ f ∈ keysOf n, f ∈ keysOf o) := by
    simpa [sameKeySetB, List.all_eq_true] using hk
  have heq : dictEqB o n = true := by
    unfold dictEqB
    rw [List.all_eq_true]
    intro f hf
    have hfmem : f ∈ sortStrs (dedupFirst (keysOf o ++ keysOf n)) := by
      rw [mem_sortStrs, mem_dedupFirst]
      exact hf
    have hdg : dget o f = dget n f := by
      by_contra hne'
      exact hall f hfmem (decide_eq_true hne')
    have hfo : f ∈ keysOf o := by
      rcases List.mem_append.mp hf with h | h
      · exact h
      · exact hk'.2 f h
    have hfn : f ∈ keysOf n := hk'.1 f hfo
    obtain ⟨wo, hwo⟩ := mem_keysOf_getOpt hfo
    obtain ⟨wn, hwn⟩ := mem_keysOf_getOpt hfn
    have h1 : dget o f = wo := by unfold dget; rw [hwo]
    have h2 : dget n f = wn := by unfold dget; rw [hwn]
    rw [hwo, hwn]
    have : wo = wn := by rw [← h1, ← h2, hdg]
    rw [this]
    exact beq_self_eq_true wn
  rw [heq] at hne
  cases hne

/-! ## Claim theorems on the reconciler -/

/-- C7: reconciling a record set against itself yields `added = []`,
`removed = []`, an empty `updated` list, and a change event whose counts
satisfy `counts.old == counts.new`. -/
theorem c7_self_reconcile_is_noop (d : List PyRecord) (key : String) :
    (log_changes d d key).added = [] ∧ (log_changes d d key).removed = [] ∧
    (log_changes d d key).updated = [] ∧
    (log_changes d d key).countsOld = (log_changes d d key).countsNew := by
  refine ⟨?_, ?_, ?_, rfl⟩
  · rw [List.eq_nil_iff_forall_not_mem]
    intro v hv
    obtain ⟨h1, h2⟩ := mem_added_iff.mp hv
    exact h2 h1
  · rw [List.eq_nil_iff_forall_not_mem]
    intro v hv
    obtain ⟨h1, h2⟩ := mem_removed_iff.mp hv
    exact h2 h1
  · rw [List.eq_nil_iff_forall_not_mem]
    intro e he
    obtain ⟨o, n, ho, hn, hd, _⟩ := mem_updated_iff.mp he
    rw [ho] at hn
    have hon : o = n := Option.some.inj hn
    subst hon
    rw [dictEqB_refl o] at hd
    exact Bool.noConfusion hd

/-- The symbols reported in the `updated` list of a change event. -/
def updSymsOf (ev : ChangeEvent) : List Val := ev.updated.map (fun e => e.1)

/-- A symbol present in both record sets with dict-equal records. -/
def unchangedIn (key : String) (old_data new_data : List PyRecord) (v : Val) : Prop :=
  ∃ o ∈ old_data, ∃ n ∈ new_data,
    getOpt o key = some v ∧ getOpt n key = some v ∧ dictEqB o n = true

/-- C3: for uniquely-keyed old/new record sets, `added`, `removed` and the
symbols of `updated` are pairwise disjoint, and every symbol occurring in
either set lies in exactly one of added / removed / updated / unchanged
(present in both with dict-equal records).  The `≠ some none` hypotheses
restrict key values to strings (the data model requires `symbol` to be a
string; on mixed `None`/string keys Python's `sorted` in `log_changes` is
itself undefined). -/
theorem c3_reconcile_partition (key : String) (old_data new_data : List PyRecord)
    (huo : (keyVals key old_data).Nodup) (hun : (keyVals key new_data).Nodup)
    (hso : ∀ r ∈ old_data, getOpt r key ≠ some none)
    (hsn : ∀ r ∈ new_data, getOpt r key ≠ some none) :
    ∀ v : Val,
      (¬(v ∈ (log_changes old_data new_data key).added ∧
         v ∈ (log_changes old_data new_data key).removed) ∧
       ¬(v ∈ (log_changes old_data new_data key).added ∧
         v ∈ updSymsOf (log_changes old_data new_data key)) ∧
       ¬(v ∈ (log_changes old_data new_data key).added ∧
         unchangedIn key old_data new_data v) ∧
       ¬(v ∈ (log_changes old_data new_data key).removed ∧
         v ∈ updSymsOf (log_changes old_data new_data key)) ∧
       ¬(v ∈ (log_changes old_data new_data key).removed ∧
         unchangedIn key old_data new_data v) ∧
       ¬(v ∈ updSymsOf (log_changes old_data new_data key) ∧
         unchangedIn key old_data new_data v)) ∧
      (((∃ r ∈ old_data, getOpt r key = some v) ∨
        (∃ r ∈ new_data, getOpt r key = some v)) →
        (v ∈ (log_changes old_data new_data key).added ∨
         v ∈ (log_changes old_data new_data key).removed ∨
         v ∈ updSymsOf (log_changes old_data new_data key) ∨
         unchangedIn key old_data new_data v)) := by
  intro v
  unfold updSymsOf unchangedIn
  constructor
  · refine ⟨?_, ?_, ?_, ?_, ?_, ?_⟩
    · rintro ⟨hA, hR⟩
      exact (mem_added_iff.mp hA).2 (mem_removed_iff.mp hR).1
    · rintro ⟨hA, hU⟩
      obtain ⟨o, n, ho, hn, hd⟩ := mem_updSyms_iff.mp hU
      exact (mem_added_iff.mp hA).2 (mem_mkeys_of_mlookup ho)
    · rintro ⟨hA, o, hom, n, hnm, hov, hnv, hd⟩
      exact (mem_added_iff.mp hA).2 (mem_mkeys_buildMap.mpr ⟨o, hom, hov⟩)
    · rintro ⟨hR, hU⟩
      obtain ⟨o, n, ho, hn, hd⟩ := mem_updSyms_iff.mp hU
      exact (mem_removed_iff.mp hR).2 (mem_mkeys_of_mlookup hn)
    · rintro ⟨hR, o, hom, n, hnm, hov, hnv, hd⟩
      exact (mem_removed_iff.mp hR).2 (mem_mkeys_buildMap.mpr ⟨n, hnm, hnv⟩)
    · rintro ⟨hU, o, hom, n, hnm, hov, hnv, hd⟩
      obtain ⟨o', n', ho', hn', hd'⟩ := mem_updSyms_iff.mp hU
      have ho2 : mlookup (buildMap key old_data) v = some o :=
        mlookup_buildMap_of_uniq huo hom hov
      have hn2 : mlookup (buildMap key new_data) v = some n :=
        mlookup_buildMap_of_uniq hun hnm hnv
      rw [ho2] at ho'
      rw [hn2] at hn'
      have hoe : o = o' := Option.some.inj ho'
      subst hoe
      have hne : n = n' := Option.some.inj hn'
      subst hne
      rw [hd] at hd'
      exact Bool.noConfusion hd'
  · intro hocc
    by_cases vO : v ∈ mkeys (buildMap key old_data)
    · by_cases vN : v ∈ mkeys (buildMap key new_data)
      · obtain ⟨o, ho⟩ := mlookup_isSome_of_mem vO
        obtain ⟨n, hn⟩ := mlookup_isSome_of_mem vN
        cases hd : dictEqB o n
        · exact Or.inr (Or.inr (Or.inl (mem_updSyms_iff.mpr ⟨o, n, ho, hn, hd⟩)))
        · obtain ⟨hom, hov⟩ := mlookup_buildMap_mem ho
          obtain ⟨hnm, hnv⟩ := mlookup_buildMap_mem hn
          exact Or.inr (Or.inr (Or.inr ⟨o, hom, n, hnm, hov, hnv, hd⟩))
      · exact Or.inr (Or.inl (mem_removed_iff.mpr ⟨vO, vN⟩))
    · by_cases vN : v ∈ mkeys (buildMap key new_data)
      · exact Or.inl (mem_added_iff.mpr ⟨vN, vO⟩)
      · exfalso
        rcases hocc with ⟨r, hr, hv⟩ | ⟨r, hr, hv⟩
        · exact vO (mem_mkeys_buildMap.mpr ⟨r, hr, hv⟩)
        · exact vN (mem_mkeys_buildMap.mpr ⟨r, hr, hv⟩)

def c3old : List PyRecord :=
  [[("symbol", some "AAPL"), ("sector", some "Tech")],
   [("symbol", some "IBM"), ("sector", some "IT")]]

def c3new : List PyRecord :=
  [[("symbol", some "AAPL"), ("sector", some "Technology")],
   [("symbol", some "MSFT"), ("sector", some "Tech")]]

/-- Witness for C3: hypotheses hold at a concrete pair of record sets and the
occurring symbol `MSFT` falls in one of the four classes. -/
theorem c3_reconcile_partition_witness :
    (keyVals "symbol" c3old).Nodup ∧ (keyVals "symbol" c3new).Nodup ∧
    (∀ r ∈ c3old, getOpt r "symbol" ≠ some none) ∧
    (∀ r ∈ c3new, getOpt r "symbol" ≠ some none) ∧
    (some "MSFT" ∈ (log_changes c3old c3new "symbol").added ∨
     some "MSFT" ∈ (log_changes c3old c3new "symbol").removed ∨
     some "MSFT" ∈ updSymsOf (log_changes c3old c3new "symbol") ∨
     unchangedIn "symbol" c3old c3new (some "MSFT")) :=
  ⟨by decide, by decide, by decide, by decide,
    (c3_reconcile_partition "symbol" c3old c3new (by decide) (by decide)
        (by decide) (by decide) (some "MSFT")).2
      (Or.inr ⟨[("symbol", some "MSFT"), ("sector", some "Tech")], by decide, by decide⟩)⟩

/-- Key sets agree between every old record and its matched new record
(a decidable hypothesis; it holds in particular for canonical record sets,
where every record carries exactly the six canonical fields). -/
def pairKeysOkB (key : String) (old_data new_data : List PyRecord) : Bool :=
  (buildMap key old_data).all (fun p =>
    match mlookup (buildMap key new_data) p.1 with
    | some n => sameKeySetB p.2 n
    | none => true)

/-- C4: every entry of `updated` records, for each listed field, the old and
new `get` values (missing field read as null), these differ, and the change
set is nonempty — no no-op updated entries — provided matched records have
equal field-name sets (true of canonical record sets). -/
theorem c4_field_diff_sound (key : String) (old_data new_data : List PyRecord)
    (hpk : pairKeysOkB key old_data new_data = true) :
    ∀ e ∈ (log_changes old_data new_data key).updated,
      e.2 ≠ [] ∧
      ∃ o n, mlookup (buildMap key old_data) e.1 = some o ∧
        mlookup (buildMap key new_data) e.1 = some n ∧
        ∀ c ∈ e.2, c.2.1 = dget o c.1 ∧ c.2.2 = dget n c.1 ∧ c.2.1 ≠ c.2.2 := by
  intro e he
  obtain ⟨o, n, ho, hn, hd, hch⟩ := mem_updated_iff.mp he
  have hpair : (e.1, o) ∈ buildMap key old_data := mlookup_mem_pair ho
  have hsk : sameKeySetB o n = true := by
    have hall := List.all_eq_true.mp (by unfold pairKeysOkB at hpk; exact hpk) (e.1, o) hpair
    simpa [hn] using hall
  refine ⟨?_, o, n, ho, hn, ?_⟩
  · rw [hch]
    exact changesFor_ne_nil hsk hd
  · intro c hc
    rw [hch] at hc
    obtain ⟨hmem, hne, h1, h2⟩ := mem_changesFor_iff.mp hc
    refine ⟨h1, h2, ?_⟩
    rw [h1, h2]
    exact hne

def c4old : List PyRecord := [[("symbol", some "AAPL"), ("sector", some "Tech")]]

def c4new : List PyRecord := [[("symbol", some "AAPL"), ("sector", some "Technology")]]

/-- Witness for C4: at a concrete one-record update, the single updated entry
has a nonempty change set recording the differing field. -/
theorem c4_field_diff_sound_witness :
    pairKeysOkB "symbol" c4old c4new = true ∧
    (some "AAPL", [("sector", (some "Tech" : Val), (some "Technology" : Val))]) ∈
      (log_changes c4old c4new "symbol").updated ∧
    ([("sector", (some "Tech" : Val), (some "Technology" : Val))] ≠
      ([] : List (String × Val × Val))) ∧
    (∃ o n, mlookup (buildMap "symbol" c4old) (some "AAPL") = some o ∧
      mlookup (buildMap "symbol" c4new) (some "AAPL") = some n ∧
      ∀ c ∈ [("sector", (some "Tech" : Val), (some "Technology" : Val))],
        c.2.1 = dget o c.1 ∧ c.2.2 = dget n c.1 ∧ c.2.1 ≠ c.2.2) := by
  have h := c4_field_diff_sound "symbol" c4old c4new (by decide)
      ((some "AAPL"), [("sector", (some "Tech" : Val), (some "Technology" : Val))]) (by decide)
  exact ⟨by decide, by decide, h.1, h.2⟩

/-! ## Canonicalizer (`_norm_col` and column resolution, main.py lines 126–130
and 163–175)

The Unicode services used by `_norm_col` — `unicodedata.normalize("NFKC", ·)`,
Python's `\s` whitespace class and `str.lower` — are external library
collaborators, modelled as the parameters of `UEnv`; everything the function
itself does (step order, hyphen replacement, run collapsing, trimming,
candidate priority) is embedded concretely below. -/

structure UEnv where
  nfkc : String → String
  lowerChar : Char → Char
  isSpace : Char → Bool

/-- The two Unicode hyphen variants replaced by `_norm_col`
(`"‑"` non-breaking hyphen and `"‐"` hyphen) become a plain `-`. -/
def dehyphenChar (c : Char) : Char :=
  if c = '‑' ∨ c = '‐' then '-' else c

def dehyphenL (l : List Char) : List Char := l.map dehyphenChar

/-- Embedding of `re.sub(r"\s+", " ", s)`: every maximal run of whitespace
characters becomes a single space.  The flag records whether the previous
character belonged to a run that has already emitted its space. -/
def collapseWS (sp : Char → Bool) (prevSp : Bool) : List Char → List Char
  | [] => []
  | c :: rest =>
    if sp c then
      (if prevSp then collapseWS sp true rest else ' ' :: collapseWS sp true rest)
    else c :: collapseWS sp false rest

/-- Embedding of `str.strip()`: drop whitespace from both ends. -/
def stripList (sp : Char → Bool) (l : List Char) : List Char :=
  ((l.dropWhile sp).reverse.dropWhile sp).reverse

/-- Embedding of `_norm_col` (main.py lines 126–130): NFKC, then hyphen
unification, then whitespace-run collapsing, then trim, then lowercase. -/
def _norm_col (env : UEnv) (s : String) : String :=
  String.mk ((stripList env.isSpace
    (collapseWS env.isSpace false (dehyphenL (env.nfkc s).toList))).map env.lowerChar)

/-- The lookup `col_map = { _norm_col(c): c for c in df.columns }` (line 163):
on duplicate normalized names the later column wins, so we recurse from the
right exactly as `buildMap` does. -/
def colMap (env : UEnv) : List String → List (String × String)
  | [] => []
  | c :: rest =>
    let m := colMap env rest
    let nc := _norm_col env c
    if nc ∈ m.map (fun p => p.1) then m else (nc, c) :: m

def slookup (m : List (String × String)) (k : String) : Option String :=
  (m.find? (fun p => p.1 == k)).map (fun p => p.2)

/-- The `want` table of candidate normalized names per canonical field
(main.py lines 164–171), in source order. -/
def want : List (String × List String) :=
  [("symbol", ["symbol"]),
   ("name", ["security", "company", "name"]),
   ("sector", ["gics sector", "sector"]),
   ("sub_sector", ["gics sub-industry", "gics sub industry", "sub-industry", "sub industry"]),
   ("headquarters", ["headquarters location", "headquarters"]),
   ("date_added", ["date first added", "date added"])]

/-- The `chosen` mapping (lines 173–175): for each canonical field, the first
candidate present in the column lookup wins; `none` when no candidate matches
(`next(..., None)`). -/
def chosenOf (env : UEnv) (cols : List String) : List (String × Option String) :=
  want.map (fun p => (p.1, p.2.findSome? (fun c => slookup (colMap env cols) c)))

/-- The resolved source column of one canonical field. -/
def chosenField (env : UEnv) (cols : List String) (f : String) : Option String :=
  ((chosenOf env cols).find? (fun p => p.1 == f)).bind (fun p => p.2)

/-! ### Lemmas about the column lookup -/

theorem mem_colMap_keys {env : UEnv} {cols : List String} {c : String} :
    c ∈ (colMap env cols).map (fun p => p.1) ↔ ∃ col ∈ cols, _norm_col env col = c := by
  induction cols with
  | nil => simp [colMap]
  | cons a rest ih =>
    simp only [colMap]
    by_cases hc : _norm_col env a ∈ (colMap env rest).map (fun p => p.1)
    · rw [if_pos hc, ih]
      constructor
      · rintro ⟨s, hs, hv⟩; exact ⟨s, List.Mem.tail _ hs, hv⟩
      · rintro ⟨s, hs, hv⟩
        rcases List.mem_cons.mp hs with h | h
        · subst h
          rw [hv] at hc
          exact ih.mp hc
        · exact ⟨s, h, hv⟩
    · rw [if_neg hc]
      simp only [List.map_cons, List.mem_cons]
      rw [ih]
      constructor
      · rintro (h | ⟨s, hs, hv⟩)
        · exact ⟨a, Or.inl rfl, h.symm⟩
        · exact ⟨s, Or.inr hs, hv⟩
      · rintro ⟨s, hs, hv⟩
        rcases hs with h | h
        · subst h; exact Or.inl hv.symm
        · exact Or.inr ⟨s, h, hv⟩

theorem slookup_colMap_some {env : UEnv} {cols : List String} {c orig : String}
    (h : slookup (colMap env cols) c = some orig) :
    orig ∈ cols ∧ _norm_col env orig = c := by
  induction cols with
  | nil => simp [colMap, slookup] at h
  | cons a rest ih =>
    simp only [colMap] at h
    by_cases hc : _norm_col env a ∈ (colMap env rest).map (fun p => p.1)
    · rw [if_pos hc] at h
      obtain ⟨ho, hv⟩ := ih h
      exact ⟨List.Mem.tail _ ho, hv⟩
    · rw [if_neg hc] at h
      unfold slookup at h
      rw [List.find?_cons] at h
      cases hac : ((_norm_col env a, a).1 == c)
      · simp only [hac] at h
        obtain ⟨ho, hv⟩ := ih h
        exact ⟨List.Mem.tail _ ho, hv⟩
      · simp only [hac, Option.map_some'] at h
        have hao : a = orig := Option.some.inj h
        subst hao
        exact ⟨List.mem_cons_self a rest, by simpa using (eq_of_beq hac)⟩

theorem slookup_isSome_of_mem_keys {m : List (String × String)} {c : String}
    (h : c ∈ m.map (fun p => p.1)) : ∃ orig, slookup m c = some orig := by
  induction m with
  | nil => simp at h
  | cons p m ih =>
    unfold slookup
    rw [List.find?_cons]
    cases hp : (p.1 == c)
    · simp only [hp]
      rcases List.mem_cons.mp h with h' | h'
      · have hv : p.1 = c := h'.symm
        rw [hv, beq_self_eq_true] at hp
        simp at hp
      · exact ih h'
    · exact ⟨p.2, by simp only [hp, Option.map_some']⟩

theorem slookup_colMap_none_iff {env : UEnv} {cols : List String} {c : String} :
    slookup (colMap env cols) c = none ↔ ∀ col ∈ cols, _norm_col env col ≠ c := by
  constructor
  · intro h col hcol he
    obtain ⟨orig, ho⟩ := slookup_isSome_of_mem_keys
      (mem_colMap_keys.mpr ⟨col, hcol, he⟩)
    rw [h] at ho
    exact Option.noConfusion ho
  · intro h
    cases hl : slookup (colMap env cols) c with
    | none => rfl
    | some orig =>
      obtain ⟨ho, hv⟩ := slookup_colMap_some hl
      exact absurd hv (h orig ho)

theorem findSome?_none_iff {α β : Type} {f : α → Option β} {l : List α} :
    l.findSome? f = none ↔ ∀ a ∈ l, f a = none := by
  induction l with
  | nil => simp [List.findSome?]
  | cons a l ih =>
    rw [List.findSome?_cons]
    cases hf : f a with
    | none => simp [hf, ih]
    | some b => simp [hf]

theorem findSome?_some_split {α β : Type} {f : α → Option β} {l : List α} {b : β}
    (h : l.findSome? f = some b) :
    ∃ pre c post, l = pre ++ c :: post ∧ f c = some b ∧ ∀ c' ∈ pre, f c' = none := by
  induction l with
  | nil => simp [List.findSome?] at h
  | cons a l ih =>
    rw [List.findSome?_cons] at h
    cases hf : f a with
    | none =>
      rw [hf] at h
      obtain ⟨pre, c, post, hl, hc, hpre⟩ := ih h
      refine ⟨a :: pre, c, post, by rw [hl, List.cons_append], hc, ?_⟩
      intro c' hc'
      rcases List.mem_cons.mp hc' with h' | h'
      · rw [h']; exact hf
      · exact hpre c' h'
    | some b' =>
      rw [hf] at h
      have hb : b' = b := Option.some.inj h
      subst hb
      exact ⟨[], a, l, rfl, hf, by intro c' hc'; cases hc'⟩

theorem chosenField_eq (env : UEnv) (cols : List String) {f : String}
    {cands : List String} (hfc : (f, cands) ∈ want) :
    chosenField env cols f =
      cands.findSome? (fun c => slookup (colMap env cols) c) := by
  have hw := hfc
  simp only [want, List.mem_cons, List.not_mem_nil, or_false] at hw
  rcases hw with h | h | h | h | h | h <;>
    (injection h with h1 h2; subst h1; subst h2; simp [chosenField, chosenOf, want])

theorem mem_collapseWS {sp : Char → Bool} {b : Bool} {l : List Char} {c : Char}
    (h : c ∈ collapseWS sp b l) : c = ' ' ∨ c ∈ l := by
  induction l generalizing b with
  | nil => simp [collapseWS] at h
  | cons a l ih =>
    simp only [collapseWS] at h
    by_cases ha : sp a = true
    · rw [if_pos ha] at h
      by_cases hb : b = true
      · rw [if_pos hb] at h
        rcases ih h with h' | h'
        · exact Or.inl h'
        · exact Or.inr (List.Mem.tail _ h')
      · rw [if_neg hb] at h
        rcases List.mem_cons.mp h with h' | h'
        · exact Or.inl h'
        · rcases ih h' with h'' | h''
          · exact Or.inl h''
          · exact Or.inr (List.Mem.tail _ h'')
    · rw [if_neg ha] at h
      rcases List.mem_cons.mp h with h' | h'
      · exact Or.inr (h' ▸ List.mem_cons_self a l)
      · rcases ih h' with h'' | h''
        · exact Or.inl h''
        · exact Or.inr (List.Mem.tail _ h'')

theorem mem_of_mem_dropWhileL {p : Char → Bool} {l : List Char} {c : Char}
    (h : c ∈ l.dropWhile p) : c ∈ l := by
  induction l with
  | nil => simp at h
  | cons a l ih =>
    rw [List.dropWhile_cons] at h
    by_cases ha : p a = true
    · rw [if_pos ha] at h
      exact List.Mem.tail _ (ih h)
    · rw [if_neg ha] at h
      exact h

theorem mem_stripList {sp : Char → Bool} {l : List Char} {c : Char}
    (h : c ∈ stripList sp l) : c ∈ l := by
  unfold stripList at h
  rw [List.mem_reverse] at h
  have h1 := mem_of_mem_dropWhileL h
  rw [List.mem_reverse] at h1
  exact mem_of_mem_dropWhileL h1

/-- C6: the canonicalizer normalizes headers through the NFKC → hyphen
unification → whitespace collapsing → trim → lowercase pipeline (the pipeline
is `_norm_col`; the conjuncts below check the hyphen elimination it performs
and are parametric in the external Unicode services), and resolves each of the
six canonical fields to the first candidate normalized name that has a
matching column — e.g. `sector` prefers a column normalizing to
`"gics sector"` over one normalizing to `"sector"` — and to absent when no
candidate matches. -/
theorem c6_canonicalizer_resolution (env : UEnv) (cols : List String) :
    (∀ f cands, (f, cands) ∈ want →
      ((chosenField env cols f = none ↔
          ∀ c ∈ cands, ∀ col ∈ cols, _norm_col env col ≠ c) ∧
       (∀ orig, chosenField env cols f = some orig →
          orig ∈ cols ∧ ∃ pre c post, cands = pre ++ c :: post ∧
            _norm_col env orig = c ∧
            ∀ c' ∈ pre, ∀ col ∈ cols, _norm_col env col ≠ c'))) ∧
    ((∃ col ∈ cols, _norm_col env col = "gics sector") →
      ∃ orig, chosenField env cols "sector" = some orig ∧
        _norm_col env orig = "gics sector") ∧
    (∀ s : String,
      (∀ ch ∈ dehyphenL (env.nfkc s).toList,
          env.lowerChar ch ≠ '‑' ∧ env.lowerChar ch ≠ '‐') →
      (env.lowerChar ' ' ≠ '‑' ∧ env.lowerChar ' ' ≠ '‐') →
      ∀ ch ∈ (_norm_col env s).toList, ch ≠ '‑' ∧ ch ≠ '‐') := by
  refine ⟨?_, ?_, ?_⟩
  · intro f cands hfc
    rw [chosenField_eq env cols hfc]
    constructor
    · rw [findSome?_none_iff]
      constructor
      · intro h c hc col hcol he
        exact (slookup_colMap_none_iff.mp (h c hc)) col hcol he
      · intro h c hc
        exact slookup_colMap_none_iff.mpr (h c hc)
    · intro orig ho
      obtain ⟨pre, c, post, hsplit, hc, hpre⟩ := findSome?_some_split ho
      obtain ⟨hcol, hnorm⟩ := slookup_colMap_some hc
      refine ⟨hcol, pre, c, post, hsplit, hnorm, ?_⟩
      intro c' hc' col hcolm he
      exact (slookup_colMap_none_iff.mp (hpre c' hc')) col hcolm he
  · rintro ⟨col, hcol, hnorm⟩
    have hfc : ("sector", ["gics sector", "sector"]) ∈ want := by
      simp [want]
    rw [chosenField_eq env cols hfc]
    obtain ⟨orig, ho⟩ := slookup_isSome_of_mem_keys
      (mem_colMap_keys.mpr ⟨col, hcol, hnorm⟩)
    refine ⟨orig, ?_, (slookup_colMap_some ho).2⟩
    rw [List.findSome?_cons, ho]
  · intro s hde hsp ch hch
    have hl : (_norm_col env s).toList =
        (stripList env.isSpace
          (collapseWS env.isSpace false (dehyphenL (env.nfkc s).toList))).map
          env.lowerChar := rfl
    rw [hl] at hch
    obtain ⟨ch', hm, he⟩ := List.mem_map.mp hch
    have h1 := mem_stripList hm
    rcases mem_collapseWS h1 with h2 | h2
    · rw [← he, h2]
      exact hsp
    · rw [← he]
      exact hde ch' h2

def env0 : UEnv :=
  { nfkc := fun s => s, lowerChar := fun c => c, isSpace := fun c => c == ' ' }

def cols0 : List String := ["symbol", "gics  sector", "sector"]

/-- Witness for C6 at a concrete header list: `sector` resolves to the column
normalizing to `"gics sector"` (here `"gics  sector"`, a double-spaced header
whose whitespace run is collapsed) in preference to the column `"sector"`. -/
theorem c6_canonicalizer_resolution_witness :
    ("sector", ["gics sector", "sector"]) ∈ want ∧
    (∃ col ∈ cols0, _norm_col env0 col = "gics sector") ∧
    (∃ orig, chosenField env0 cols0 "sector" = some orig ∧
      _norm_col env0 orig = "gics sector") ∧
    chosenField env0 cols0 "sector" = some "gics  sector" :=
  ⟨by decide, ⟨"gics  sector", by decide, by decide⟩,
   (c6_canonicalizer_resolution env0 cols0).2.1 ⟨"gics  sector", by decide, by decide⟩,
   by decide⟩

/-! ## Deduplicate-and-sort stage (`fetch_sp500_list`, main.py lines 191–198) -/

/-- Python truthiness of a key value: `if k` keeps a value that is neither
`None` nor the empty string. -/
def truthy : Val → Bool
  | none => false
  | some s => !(s == "")

/-- The sort key `lambda r: r.get("symbol") or ""` (line 198): a null symbol
reads as the empty string (and so does an empty one, identically). -/
def sortKey (r : PyRecord) : String := (dget r "symbol").getD ""

/-- The dedup loop (lines 192–197): iterate in order, keep a record when its
symbol is truthy and not yet seen. -/
def dedupe (seen : List Val) : List PyRecord → List PyRecord
  | [] => []
  | r :: rest =>
    if truthy (dget r "symbol") && !(decide (dget r "symbol" ∈ seen)) then
      r :: dedupe (dget r "symbol" :: seen) rest
    else dedupe seen rest

/-- Sort order of `uniq.sort(key=...)`: Python string comparison of sort keys. -/
def recLE (a b : PyRecord) : Prop := strLeB (sortKey a) (sortKey b) = true

instance : DecidableRel recLE := fun _ _ => inferInstanceAs (Decidable (_ = true))

theorem lexLeB_total (a b : List Char) : lexLeB a b = true ∨ lexLeB b a = true := by
  induction a generalizing b with
  | nil => left; rfl
  | cons x xs ih =>
    cases b with
    | nil => right; rfl
    | cons y ys =>
      simp only [lexLeB]
      by_cases h1 : x.toNat < y.toNat
      · left; rw [if_pos h1]
      · by_cases h2 : y.toNat < x.toNat
        · right; rw [if_pos h2]
        · rcases ih ys with h | h
          · left; rw [if_neg h1, if_neg h2]; exact h
          · right; rw [if_neg h2, if_neg h1]; exact h

theorem lexLeB_trans : ∀ {a b c : List Char},
    lexLeB a b = true → lexLeB b c = true → lexLeB a c = true := by
  intro a
  induction a with
  | nil => intro b c h1 h2; rfl
  | cons x xs ih =>
    intro b c h1 h2
    cases b with
    | nil => exact absurd h1 (by simp [lexLeB])
    | cons y ys =>
      cases c with
      | nil => exact absurd h2 (by simp [lexLeB])
      | cons z zs =>
        simp only [lexLeB] at h1 h2 ⊢
        by_cases hyx : y.toNat < x.toNat
        · rw [if_neg (by omega), if_pos hyx] at h1
          exact absurd h1 (by simp)
        · by_cases hzy : z.toNat < y.toNat
          · rw [if_neg (by omega), if_pos hzy] at h2
            exact absurd h2 (by simp)
          · by_cases hxy : x.toNat < y.toNat
            · rw [if_pos (by omega)]
            · by_cases hyz : y.toNat < z.toNat
              · rw [if_pos (by omega)]
              · rw [if_neg (by omega), if_neg (by omega)]
                rw [if_neg hxy, if_neg hyx] at h1
                rw [if_neg hyz, if_neg hzy] at h2
                exact ih h1 h2

instance : IsTotal PyRecord recLE := ⟨fun a b => lexLeB_total _ _⟩

instance : IsTrans PyRecord recLE := ⟨fun _ _ _ h1 h2 => lexLeB_trans h1 h2⟩

/-- Embedding of `uniq.sort(key=lambda r: r.get("symbol") or "")` (line 198).
The retained records have pairwise distinct keys, so the sorted arrangement is
unique and any correct sort, in particular insertion sort, computes it. -/
def sortRecs (l : List PyRecord) : List PyRecord := List.insertionSort recLE l

/-- The dedupe & sort stage of `fetch_sp500_list` (lines 191–198). -/
def dedupe_sort (recs : List PyRecord) : List PyRecord := sortRecs (dedupe [] recs)

/-- The first record of a list carrying a given symbol value. -/
def firstWithSym (k : Val) (recs : List PyRecord) : Option PyRecord :=
  recs.find? (fun r => dget r "symbol" == k)

theorem dedupe_mem_spec : ∀ {seen : List Val} {recs : List PyRecord} {r : PyRecord},
    r ∈ dedupe seen recs →
    truthy (dget r "symbol") = true ∧ dget r "symbol" ∉ seen ∧
      firstWithSym (dget r "symbol") recs = some r := by
  intro seen recs
  induction recs generalizing seen with
  | nil => intro r h; simp [dedupe] at h
  | cons a rest ih =>
    intro r h
    simp only [dedupe] at h
    by_cases hk : (truthy (dget a "symbol") && !(decide (dget a "symbol" ∈ seen))) = true
    · rw [if_pos hk] at h
      obtain ⟨htr, hns⟩ := Bool.and_eq_true_iff.mp hk
      have hnseen : dget a "symbol" ∉ seen := by
        intro hc
        rw [decide_eq_true hc] at hns
        exact Bool.noConfusion hns
      rcases List.mem_cons.mp h with h' | h'
      · subst h'
        refine ⟨htr, hnseen, ?_⟩
        unfold firstWithSym
        rw [List.find?_cons, beq_self_eq_true]
      · obtain ⟨htr', hns', hfirst⟩ := ih h'
        have hne : dget r "symbol" ≠ dget a "symbol" := by
          intro he
          exact hns' (he ▸ List.mem_cons_self _ _)
        refine ⟨htr', fun hc => hns' (List.Mem.tail _ hc), ?_⟩
        unfold firstWithSym
        rw [List.find?_cons]
        have : (dget a "symbol" == dget r "symbol") = false :=
          beq_eq_false_iff_ne.mpr (fun he => hne he.symm)
        simp only [this]
        exact hfirst
    · rw [if_neg hk] at h
      obtain ⟨htr', hns', hfirst⟩ := ih h
      have hne : dget r "symbol" ≠ dget a "symbol" := by
        intro he
        rcases Bool.and_eq_false_iff.mp (Bool.eq_false_iff.mpr hk) with hf | hf
        · rw [← he] at hf; rw [htr'] at hf; exact Bool.noConfusion hf
        · have : dget a "symbol" ∈ seen := by
            by_contra hc
            rw [decide_eq_false hc] at hf
            exact Bool.noConfusion hf
          exact hns' (he ▸ this)
      refine ⟨htr', hns', ?_⟩
      unfold firstWithSym
      rw [List.find?_cons]
      have : (dget a "symbol" == dget r "symbol") = false :=
        beq_eq_false_iff_ne.mpr (fun he => hne he.symm)
      simp only [this]
      exact hfirst

theorem dedupe_covers : ∀ {seen : List Val} {recs : List PyRecord} {k : Val},
    truthy k = true → (∃ r ∈ recs, dget r "symbol" = k) →
    k ∈ seen ∨ ∃ r' ∈ dedupe seen recs, dget r' "symbol" = k := by
  intro seen recs
  induction recs generalizing seen with
  | nil =>
    rintro k _ ⟨r, hr, _⟩
    cases hr
  | cons a rest ih =>
    rintro k htr ⟨r, hr, hk⟩
    simp only [dedupe]
    by_cases hcond : (truthy (dget a "symbol") && !(decide (dget a "symbol" ∈ seen))) = true
    · rw [if_pos hcond]
      by_cases hak : dget a "symbol" = k
      · exact Or.inr ⟨a, List.mem_cons_self _ _, hak⟩
      · rcases List.mem_cons.mp hr with h' | h'
        · subst h'; exact absurd hk hak
        · rcases ih htr ⟨r, h', hk⟩ with h | ⟨r', hr', hk'⟩
          · rcases List.mem_cons.mp h with h'' | h''
            · exact absurd h''.symm hak
            · exact Or.inl h''
          · exact Or.inr ⟨r', List.Mem.tail _ hr', hk'⟩
    · rw [if_neg hcond]
      rcases List.mem_cons.mp hr with h' | h'
      · subst h'
        rcases Bool.and_eq_false_iff.mp (Bool.eq_false_iff.mpr hcond) with hf | hf
        · rw [hk] at hf; rw [htr] at hf; exact Bool.noConfusion hf
        · have : dget r "symbol" ∈ seen := by
            by_contra hc
            rw [decide_eq_false hc] at hf
            exact Bool.noConfusion hf
          exact Or.inl (hk ▸ this)
      · exact ih htr ⟨r, h', hk⟩

theorem dedupe_keys_nodup : ∀ {seen : List Val} {recs : List PyRecord},
    ((dedupe seen recs).map (fun r => dget r "symbol")).Nodup := by
  intro seen recs
  induction recs generalizing seen with
  | nil => simp [dedupe]
  | cons a rest ih =>
    simp only [dedupe]
    by_cases hcond : (truthy (dget a "symbol") && !(decide (dget a "symbol" ∈ seen))) = true
    · rw [if_pos hcond]
      rw [List.map_cons, List.nodup_cons]
      refine ⟨?_, ih⟩
      intro hc
      obtain ⟨r, hr, hkr⟩ := List.mem_map.mp hc
      obtain ⟨_, hns, _⟩ := dedupe_mem_spec hr
      exact hns (hkr ▸ List.mem_cons_self _ _)
    · rw [if_neg hcond]
      exact ih

theorem truthy_eq_some_getD {v : Val} (h : truthy v = true) : v = some (v.getD "") := by
  cases v with
  | none => exact Bool.noConfusion h
  | some s => rfl

/-- C5 amended: the deduplicate-and-sort stage drops every record whose symbol
is null **or the empty string** (Python truthiness at line 196), keeps exactly
the first record observed for each remaining symbol, and produces a record
list strictly ascending by symbol under lexicographic (code-point) string
order with no duplicate symbols. -/
theorem c5_dedupe_sort_amended (recs : List PyRecord) :
    List.Pairwise (fun a b =>
      strLeB (sortKey a) (sortKey b) = true ∧ sortKey a ≠ sortKey b)
      (dedupe_sort recs) ∧
    (∀ r ∈ dedupe_sort recs, truthy (dget r "symbol") = true ∧
      firstWithSym (dget r "symbol") recs = some r) ∧
    (∀ r ∈ recs, truthy (dget r "symbol") = true →
      ∃ r' ∈ dedupe_sort recs, dget r' "symbol" = dget r "symbol") := by
  have hmem : ∀ {r : PyRecord}, r ∈ dedupe_sort recs ↔ r ∈ dedupe [] recs := by
    intro r
    unfold dedupe_sort sortRecs
    exact List.mem_insertionSort _
  refine ⟨?_, ?_, ?_⟩
  · have hsorted : List.Pairwise recLE (dedupe_sort recs) :=
      List.sorted_insertionSort recLE (dedupe [] recs)
    have hperm : List.Perm (sortRecs (dedupe [] recs)) (dedupe [] recs) :=
      List.perm_insertionSort recLE (dedupe [] recs)
    have hnodup : ((dedupe_sort recs).map (fun r => dget r "symbol")).Nodup := by
      have := @dedupe_keys_nodup [] recs
      exact (hperm.map (fun r => dget r "symbol")).symm.nodup this
    have hpw_ne : List.Pairwise (fun a b => dget a "symbol" ≠ dget b "symbol")
        (dedupe_sort recs) := List.pairwise_map.mp hnodup
    have hcomb := hsorted.and hpw_ne
    refine hcomb.imp_of_mem ?_
    intro a b ha hb hab
    refine ⟨hab.1, ?_⟩
    intro hkey
    obtain ⟨hta, _, _⟩ := dedupe_mem_spec (hmem.mp ha)
    obtain ⟨htb, _, _⟩ := dedupe_mem_spec (hmem.mp hb)
    have hda : dget a "symbol" = some (sortKey a) := truthy_eq_some_getD hta
    have hdb : dget b "symbol" = some (sortKey b) := truthy_eq_some_getD htb
    rw [hda, hdb, hkey] at hab
    exact hab.2 rfl
  · intro r hr
    obtain ⟨htr, _, hfirst⟩ := dedupe_mem_spec (hmem.mp hr)
    exact ⟨htr, hfirst⟩
  · intro r hr htr
    rcases @dedupe_covers [] recs (dget r "symbol") htr ⟨r, hr, rfl⟩ with h | ⟨r', hr', hk⟩
    · cases h
    · exact ⟨r', hmem.mpr hr', hk⟩

/-- C5 counterexample: a record whose symbol is the **empty string** — not
null — is nevertheless dropped by the dedupe stage (Python truthiness `if k`),
so the claim "drops every record whose symbol is null [and] keeps exactly the
first record observed for each symbol" fails at this input: the record is the
first with its symbol yet the output is empty. -/
theorem c5_dedupe_sort_counterexample :
    dedupe_sort [[("symbol", (some "" : Val))]] = [] ∧
    dget [("symbol", (some "" : Val))] "symbol" ≠ none ∧
    firstWithSym (some "") [[("symbol", (some "" : Val))]] =
      some [("symbol", (some "" : Val))] := by decide

def c5recs : List PyRecord :=
  [[("symbol", some "MSFT"), ("sector", some "Tech")],
   [("symbol", none)],
   [("symbol", some "MSFT"), ("sector", some "Dup")],
   [("symbol", some "AAPL")]]

/-- Witness for C5 at a concrete record list with a null symbol, a duplicate
symbol and out-of-order symbols: the kept `MSFT` record is the first
occurrence, and the output is the sorted duplicate-free list. -/
theorem c5_dedupe_sort_amended_witness :
    dedupe_sort c5recs =
      [[("symbol", some "AAPL")], [("symbol", some "MSFT"), ("sector", some "Tech")]] ∧
    (truthy (dget [("symbol", (some "MSFT" : Val)), ("sector", some "Tech")] "symbol") = true ∧
     firstWithSym (dget [("symbol", (some "MSFT" : Val)), ("sector", some "Tech")] "symbol")
       c5recs = some [("symbol", some "MSFT"), ("sector", some "Tech")]) :=
  ⟨by decide,
   (c5_dedupe_sort_amended c5recs).2.1
     [("symbol", some "MSFT"), ("sector", some "Tech")] (by decide)⟩

/-! ## Record builder and full fetch pipeline (`fetch_sp500_list`, main.py
lines 144–200) -/

def isPySpace (c : Char) : Bool :=
  c == ' ' || c == '\t' || c == '\n' || c == '\r' || c == '\x0b' || c == '\x0c'

/-- Python `str.strip()` on a cell (the ASCII whitespace set; no claim
exercises exotic Unicode whitespace inside cells). -/
def pyStrip (s : String) : String :=
  String.mk (((s.toList.dropWhile isPySpace).reverse.dropWhile isPySpace).reverse)

/-- Python `str.upper()` on a ticker symbol (tickers are ASCII). -/
def pyUpper (s : String) : String := String.mk (s.toList.map Char.toUpper)

instance {ε α : Type} [DecidableEq ε] [DecidableEq α] : DecidableEq (Except ε α) := fun a b =>
  match a, b with
  | Except.error e, Except.error e' =>
    match decEq e e' with
    | isTrue h => isTrue (h ▸ rfl)
    | isFalse h => isFalse (fun hc => h (Except.error.inj hc))
  | Except.error _, Except.ok _ => isFalse (fun hc => Except.noConfusion hc)
  | Except.ok _, Except.error _ => isFalse (fun hc => Except.noConfusion hc)
  | Except.ok v, Except.ok v' =>
    match decEq v v' with
    | isTrue h => isTrue (h ▸ rfl)
    | isFalse h => isFalse (fun hc => h (Except.ok.inj hc))

/-- The raw-table abstraction consumed by the pipeline (supplied by the
excluded fetch+parse collaborator): ordered column names and ordered rows,
each mapping a column name to a nullable cell (a pandas NaN reads as `none`
through the `pd.isna` check). -/
structure Table where
  cols : List String
  rows : List PyRecord
deriving DecidableEq

/-- One iteration of the row loop of `fetch_sp500_list` (lines 178–189): read
the mapped source column when resolved and present, nullify NaN, strip string
cells, and upper-case a non-null symbol. -/
def build_record (cols : List String) (chosen : List (String × Option String))
    (row : PyRecord) : PyRecord :=
  (chosen.map (fun p => (p.1,
      match p.2 with
      | some c => if c ∈ cols then (dget row c).map pyStrip else none
      | none => none))).map
    (fun q => if q.1 == "symbol" then (q.1, q.2.map pyUpper) else q)

/-- Embedding of `fetch_sp500_list` (lines 144–200).  `tables = none` models a
fetch/parse exception (`HTTPException(502)` from `_fetch_wikipedia_html` or
the `pd.read_html` wrapper), `some []` the `"No tables found at source"` case
(also a 502); otherwise `df = tables[0]` is canonicalized, built, deduped and
sorted.  A table with zero rows yields `Except.ok []`: the function raises
nothing in that case. -/
def fetch_sp500_list (env : UEnv) (tables : Option (List Table)) :
    Except Nat (List PyRecord) :=
  match tables with
  | none => Except.error 502
  | some [] => Except.error 502
  | some (df :: _) =>
    Except.ok (dedupe_sort (df.rows.map (build_record df.cols (chosenOf env df.cols))))

/-! ## Snapshot store, audit log and the refresh operation
(main.py lines 45–58 and 213–234) -/

/-- The persistent state: the `companies.json` snapshot and the change-event
lines of `changes.log`. -/
structure World where
  snapshot : List PyRecord
  changeLog : List ChangeEvent
deriving DecidableEq

def load_data (w : World) : List PyRecord := w.snapshot

def save_companies (w : World) (data : List PyRecord) : World :=
  { w with snapshot := data }

/-- The success body `{"status": "success", "count": len(new_data), **changes}`
returned by `refresh_companies`. -/
structure RefreshOk where
  count : Nat
  added : List Val
  removed : List Val
  updated : List Val
deriving Repr, DecidableEq

/-- Embedding of `refresh_companies` (main.py lines 213–234): load the old
snapshot, fetch the new list, save it, then compute and append the change
event.  Every exception — including the `HTTPException(502)` raised inside
`fetch_sp500_list` and an IO failure of the log append (modelled by
`logFails`) — is caught by the blanket `except Exception` and re-raised as
HTTP 500.  When the log append fails, the snapshot has already been saved and
is not rolled back. -/
def refresh_companies (env : UEnv) (tables : Option (List Table)) (logFails : Bool)
    (w : World) : Except Nat RefreshOk × World :=
  let old_data := load_data w
  match fetch_sp500_list env tables with
  | Except.error _ => (Except.error 500, w)
  | Except.ok new_data =>
    let w1 := save_companies w new_data
    if logFails then (Except.error 500, w1)
    else
      let ev := log_changes old_data new_data "symbol"
      (Except.ok { count := new_data.length, added := ev.added,
                   removed := ev.removed, updated := updSymsOf ev },
       { w1 with changeLog := w1.changeLog ++ [ev] })

def w0 : World := { snapshot := [[("symbol", some "AAPL")]], changeLog := [] }

def emptyRowsTable : Table := { cols := ["symbol"], rows := [] }

/-- C1 counterexample: a parsed table with a `symbol` column but zero rows is
a source yielding zero usable rows, yet the refresh run SUCCEEDS — no
`SourceEmptyError`-style failure exists — the prior snapshot is overwritten
with the empty list and a change event is appended to the log, contradicting
the claimed fail-before-mutation behaviour. -/
theorem c1_counterexample :
    (refresh_companies env0 (some [emptyRowsTable]) false w0).1 =
      Except.ok { count := 0, added := [], removed := [some "AAPL"], updated := [] } ∧
    (refresh_companies env0 (some [emptyRowsTable]) false w0).2.snapshot = [] ∧
    (refresh_companies env0 (some [emptyRowsTable]) false w0).2.snapshot ≠ w0.snapshot ∧
    (refresh_companies env0 (some [emptyRowsTable]) false w0).2.changeLog ≠ w0.changeLog := by
  decide

/-- C1 amended: the refresh operation fails before any snapshot mutation only
when fetching/parsing yields no table at all (fetch error or zero parsed
tables, both surfacing as an HTTP error with the world untouched); a parsed
table that yields zero usable rows after canonicalization instead completes
successfully, persisting the empty list as the new snapshot and appending a
change event to the log. -/
theorem c1_zero_rows_persists_empty (env : UEnv) (w : World) :
    (refresh_companies env none false w = (Except.error 500, w)) ∧
    (refresh_companies env (some []) false w = (Except.error 500, w)) ∧
    (∀ tables, fetch_sp500_list env tables = Except.ok [] →
      refresh_companies env tables false w =
        (Except.ok { count := 0,
                     added := (log_changes w.snapshot [] "symbol").added,
                     removed := (log_changes w.snapshot [] "symbol").removed,
                     updated := updSymsOf (log_changes w.snapshot [] "symbol") },
         { snapshot := [],
           changeLog := w.changeLog ++ [log_changes w.snapshot [] "symbol"] })) := by
  refine ⟨rfl, rfl, ?_⟩
  intro tables hf
  unfold refresh_companies
  rw [hf]
  rfl

/-- Witness for (the amended) C1 at a concrete zero-row table and a concrete
prior world. -/
theorem c1_zero_rows_persists_empty_witness :
    fetch_sp500_list env0 (some [emptyRowsTable]) = Except.ok [] ∧
    refresh_companies env0 (some [emptyRowsTable]) false w0 =
      (Except.ok { count := 0,
                   added := (log_changes w0.snapshot [] "symbol").added,
                   removed := (log_changes w0.snapshot [] "symbol").removed,
                   updated := updSymsOf (log_changes w0.snapshot [] "symbol") },
       { snapshot := [],
         changeLog := w0.changeLog ++ [log_changes w0.snapshot [] "symbol"] }) :=
  ⟨by decide,
   (c1_zero_rows_persists_empty env0 w0).2.2 (some [emptyRowsTable]) (by decide)⟩

def oneRowTable : Table :=
  { cols := ["symbol"], rows := [[("symbol", some "aapl")]] }

def builtAAPL : PyRecord :=
  [("symbol", some "AAPL"), ("name", none), ("sector", none), ("sub_sector", none),
   ("headquarters", none), ("date_added", none)]

/-- C2 counterexample: when the log append fails after a successful snapshot
save, the run is reported to the caller as a FAILURE (HTTP 500 from the
blanket handler), not as a success with a warning as claimed — while the
already-saved snapshot does remain in place. -/
theorem c2_counterexample :
    refresh_companies env0 (some [oneRowTable]) true w0 =
      (Except.error 500, { snapshot := [builtAAPL], changeLog := [] }) := by
  decide

/-- C2 amended: when the snapshot save succeeds and the subsequent audit-log
append fails, the already-saved snapshot is not rolled back and the log is
left unchanged, but the run is reported to the caller as an HTTP 500 failure
(the blanket `except Exception` wraps the log error), not as a success. -/
theorem c2_log_failure_no_rollback (env : UEnv) (w : World)
    (tables : Option (List Table)) (new_data : List PyRecord)
    (hf : fetch_sp500_list env tables = Except.ok new_data) :
    refresh_companies env tables true w =
      (Except.error 500, { snapshot := new_data, changeLog := w.changeLog }) := by
  unfold refresh_companies
  rw [hf]
  rfl

/-- Witness for (the amended) C2 at a concrete one-row table. -/
theorem c2_log_failure_no_rollback_witness :
    fetch_sp500_list env0 (some [oneRowTable]) = Except.ok [builtAAPL] ∧
    refresh_companies env0 (some [oneRowTable]) true w0 =
      (Except.error 500, { snapshot := [builtAAPL], changeLog := w0.changeLog }) :=
  ⟨by decide,
   c2_log_failure_no_rollback env0 w0 (some [oneRowTable]) [builtAAPL] (by decide)⟩

/-! ## Single-record lookup (`get_company`, main.py lines 206–211) -/

/-- Python `c.get("symbol", "")`: a missing field gives the default `""`; a
present null field gives `None`, on which the subsequent `.upper()` raises
`AttributeError` (modelled as `none` here). -/
def getDefaultStr (r : PyRecord) (f dflt : String) : Option String :=
  match getOpt r f with
  | none => some dflt
  | some (some s) => some s
  | some none => none

/-- Embedding of `get_company` (lines 206–211): scan the loaded snapshot in
order; `Except.ok (some c)` is the 200 response, `Except.ok none` the 404
`HTTPException`, and `Except.error ()` the `AttributeError` a present-but-null
symbol raises inside the comparison (surfaced as a 500). -/
def get_company (data : List PyRecord) (q : String) : Except Unit (Option PyRecord) :=
  match data with
  | [] => Except.ok none
  | c :: rest =>
    match getDefaultStr c "symbol" "" with
    | none => Except.error ()
    | some s =>
      if pyUpper s == pyUpper q then Except.ok (some c) else get_company rest q

/-- C10: for every record set whose present symbol fields are non-null (the
data-model invariant, satisfied by every snapshot the pipeline persists), the
lookup returns the first record whose upper-cased symbol — a missing symbol
field read as the empty string — equals the upper-cased query, and not-found
otherwise; in particular the match is case-insensitive. -/
theorem c10_get_company_case_insensitive (data : List PyRecord) (q : String)
    (h : ∀ c ∈ data, getOpt c "symbol" ≠ some none) :
    get_company data q =
      Except.ok (data.find?
        (fun c => pyUpper ((dget c "symbol").getD "") == pyUpper q)) := by
  induction data with
  | nil => rfl
  | cons c rest ih =>
    have hc : getOpt c "symbol" ≠ some none := h c (List.mem_cons_self _ _)
    have hrest := ih (fun r hr => h r (List.Mem.tail _ hr))
    have hs : ∃ s, getDefaultStr c "symbol" "" = some s ∧
        (dget c "symbol").getD "" = s := by
      cases hg : getOpt c "symbol" with
      | none =>
        exact ⟨"", by simp [getDefaultStr, hg], by simp [dget, hg]⟩
      | some v =>
        cases v with
        | none => exact absurd hg hc
        | some s =>
          exact ⟨s, by simp [getDefaultStr, hg], by simp [dget, hg]⟩
    obtain ⟨s, h1, h2⟩ := hs
    simp only [get_company, h1]
    rw [List.find?_cons, h2]
    cases heb : (pyUpper s == pyUpper q)
    · rw [if_neg (show ¬(false = true) by decide)]
      exact hrest
    · rw [if_pos rfl]

def c10data : List PyRecord := [[("symbol", some "AAPL"), ("name", some "Apple")]]

/-- Witness for C10: a lowercase query finds the uppercase-keyed record. -/
theorem c10_get_company_case_insensitive_witness :
    (∀ c ∈ c10data, getOpt c "symbol" ≠ some none) ∧
    get_company c10data "aapl" =
      Except.ok (c10data.find?
        (fun c => pyUpper ((dget c "symbol").getD "") == pyUpper "aapl")) ∧
    get_company c10data "aapl" =
      Except.ok (some [("symbol", some "AAPL"), ("name", some "Apple")]) :=
  ⟨by decide, c10_get_company_case_insensitive c10data "aapl" (by decide), by decide⟩

/-! ## Snapshot-store write model (`save_companies` and `load_data`, main.py
lines 45–53)

`save_companies` is `open(DATA_FILE, "w")` followed by `json.dump`: the file
is truncated when opened and the new content is written afterwards.  The file
states observable during one save are modelled as the coarse two-effect trace
below; `load_data` (`json.load` over the current file) fails on the truncated
(empty) file. -/

inductive FileState where
  | absent : FileState
  | truncated : FileState
  | content : List PyRecord → FileState
deriving DecidableEq

/-- The file states a save passes through, one per atomic filesystem effect:
truncation at `open(..., "w")`, then the fully written content. -/
def save_steps (new_data : List PyRecord) : List FileState :=
  [FileState.truncated, FileState.content new_data]

/-- `load_data` against a file state: a missing file reads as `[]` (line 49);
a truncated file makes `json.load` raise `JSONDecodeError`. -/
def load_data_fs : FileState → Except Unit (List PyRecord)
  | FileState.absent => Except.ok []
  | FileState.truncated => Except.error ()
  | FileState.content d => Except.ok d

/-- C9 counterexample: between the two filesystem effects of a save replacing
`[AAPL]` by `[MSFT]`, a concurrent load observes the truncated file and fails —
it sees neither the complete old snapshot nor the complete new one, so the
replacement is not atomic with respect to concurrent loads. -/
theorem c9_counterexample :
    FileState.truncated ∈ save_steps [[("symbol", some "MSFT")]] ∧
    load_data_fs FileState.truncated ≠
      Except.ok [[("symbol", (some "AAPL" : Val))]] ∧
    load_data_fs FileState.truncated ≠
      Except.ok [[("symbol", (some "MSFT" : Val))]] := by
  decide

/-- C9 amended: a completed save replaces the persisted snapshot wholesale —
the final file state carries exactly the new record set and a load after it
returns it — but the replacement is not atomic with respect to concurrent
loads: the save trace passes through the truncated state, where a concurrent
load fails instead of observing either the old or the new snapshot. -/
theorem c9_save_wholesale_not_atomic (new_data : List PyRecord) :
    (save_steps new_data).getLast? = some (FileState.content new_data) ∧
    load_data_fs (FileState.content new_data) = Except.ok new_data ∧
    FileState.truncated ∈ save_steps new_data ∧
    load_data_fs FileState.truncated = Except.error () :=
  ⟨rfl, rfl, List.mem_cons_self _ _, rfl⟩

/-! ## Enrichment fetch (`fetch_financials`, financials_provider.py lines 13–57)

The yfinance services are external collaborators: `YTicker` models what one
symbol's ticker object yields (`fast_info` and `.info`), and the environment
function models `tickers.tickers[sym]` together with everything the
per-symbol `try` block can raise (`none` = some exception was raised).
Numeric values are an abstract type `α`; `falsy` models Python truthiness of
numbers, through which `or` falls (on `None` and on falsy numbers such as
`0.0`).  The `as_of` wall-clock field is omitted. -/

structure YInfo (α : Type) where
  currentPrice : Option α
  marketCap : Option α
  trailingPE : Option α
  forwardPE : Option α
  dividendYield : Option α
  beta : Option α
  fiftyTwoWeekHigh : Option α
  fiftyTwoWeekLow : Option α
  sharesOutstanding : Option α
deriving DecidableEq

/-- One symbol's ticker object: `fast = none` models a missing/falsy
`fast_info`, otherwise it carries `(last_price, market_cap)`. -/
structure YTicker (α : Type) where
  fast : Option (Option α × Option α)
  info : YInfo α
deriving DecidableEq

/-- The `rec` dict built per symbol (financials_provider.py lines 32–43). -/
structure FinRec (α : Type) where
  price : Option α
  market_cap : Option α
  trailing_pe : Option α
  forward_pe : Option α
  dividend_yield : Option α
  beta : Option α
  high_52w : Option α
  low_52w : Option α
  shares_outstanding : Option α
deriving DecidableEq

/-- Python `x or y` on nullable numbers: `y` when `x` is `None` or falsy. -/
def pyOr {α : Type} (falsy : α → Bool) : Option α → Option α → Option α
  | some v, y => if falsy v then y else some v
  | none, y => y

/-- `getattr(fi, "last_price", None) if fi else None`. -/
def fastPrice {α : Type} (t : YTicker α) : Option α :=
  match t.fast with
  | some f => f.1
  | none => none

/-- `getattr(fi, "market_cap", None) if fi else None`. -/
def fastMcap {α : Type} (t : YTicker α) : Option α :=
  match t.fast with
  | some f => f.2
  | none => none

/-- The per-symbol body of the fetch loop (lines 26–52): build the record from
`fast_info` with `.info` fallback; if both price and market cap are missing,
or anything in the `try` block raised, the symbol resolves to `none`
(absent — no partial record). -/
def fetchOne {α : Type} (env : String → Option (YTicker α)) (falsy : α → Bool)
    (sym : String) : Option (FinRec α) :=
  match env sym with
  | none => none
  | some t =>
    let price := pyOr falsy (fastPrice t) t.info.currentPrice
    let mcap := pyOr falsy (fastMcap t) t.info.marketCap
    match price, mcap with
    | none, none => none
    | _, _ => some
      { price := price, market_cap := mcap, trailing_pe := t.info.trailingPE,
        forward_pe := t.info.forwardPE, dividend_yield := t.info.dividendYield,
        beta := t.info.beta, high_52w := t.info.fiftyTwoWeekHigh,
        low_52w := t.info.fiftyTwoWeekLow,
        shares_outstanding := t.info.sharesOutstanding }

/-- The `range(0, len(symbols), CHUNK)` slicing; recursion structured on a
fuel that is always sufficient (the list length). -/
def chunksGo {α : Type} (n : Nat) : Nat → List α → List (List α)
  | _, [] => []
  | 0, _ :: _ => []
  | fuel + 1, x :: xs => (x :: xs.take (n - 1)) :: chunksGo n fuel (xs.drop (n - 1))

def chunksOf {α : Type} (n : Nat) (l : List α) : List (List α) :=
  chunksGo n l.length l

/-- Python dict assignment `out[sym] = v`: replace in place, or append. -/
def dictSet {β : Type} : List (String × β) → String → β → List (String × β)
  | [], k, v => [(k, v)]
  | p :: rest, k, v => if p.1 == k then (k, v) :: rest else p :: dictSet rest k v

def dictGet {β : Type} (m : List (String × β)) (k : String) : Option β :=
  (m.find? (fun p => p.1 == k)).map (fun p => p.2)

/-- Embedding of `fetch_financials` (financials_provider.py lines 13–57):
chunk the symbol list by 50, upper-case each chunk, and record every symbol's
outcome in the result dict (`time.sleep` between chunks has no observable
effect on the result). -/
def fetch_financials {α : Type} (env : String → Option (YTicker α))
    (falsy : α → Bool) (symbols : List String) :
    List (String × Option (FinRec α)) :=
  (chunksOf 50 symbols).foldl
    (fun out chunk =>
      (chunk.map pyUpper).foldl
        (fun out' sym => dictSet out' sym (fetchOne env falsy sym)) out)
    []

/-- Modelled from the spec: `mergeEnrichment` (spec section 6) — the bulk merge
of per-symbol enrichment results into the persisted enrichment store — has no
implementation under `src/`.  Following the spec's words: present results are
stored under their symbol, absent results are skipped (not stored as
tombstones, so prior enrichment data for symbols whose refresh failed is
preserved), and the updated/skipped counts are returned. -/
def merge_enrichment {α : Type} (store : List (String × FinRec α))
    (results : List (String × Option (FinRec α))) :
    List (String × FinRec α) × Nat × Nat :=
  results.foldl
    (fun acc p =>
      match p.2 with
      | none => (acc.1, acc.2.1, acc.2.2 + 1)
      | some r => (dictSet acc.1 p.1 r, acc.2.1 + 1, acc.2.2))
    (store, 0, 0)

/-! ### Lemmas about the chunked fold -/

theorem chunksGo_join {α : Type} (n : Nat) :
    ∀ (fuel : Nat) (l : List α), l.length ≤ fuel → (chunksGo n fuel l).flatten = l := by
  intro fuel
  induction fuel with
  | zero =>
    intro l hl
    cases l with
    | nil => rfl
    | cons x xs => simp at hl
  | succ fuel ih =>
    intro l hl
    cases l with
    | nil => rfl
    | cons x xs =>
      have hlen : (xs.drop (n - 1)).length ≤ fuel := by
        rw [List.length_drop]
        simp only [List.length_cons] at hl
        omega
      have hjoin : (chunksGo n (fuel + 1) (x :: xs)).flatten =
          (x :: xs.take (n - 1)) ++ (chunksGo n fuel (xs.drop (n - 1))).flatten := rfl
      rw [hjoin, ih _ hlen, List.cons_append, List.take_append_drop]

theorem chunksOf_join {α : Type} (n : Nat) (l : List α) : (chunksOf n l).flatten = l :=
  chunksGo_join n l.length l (le_refl _)

theorem foldl_map_join {α β : Type} (g : α → α) (step : β → α → β) :
    ∀ (ll : List (List α)) (init : β),
      ll.foldl (fun out chunk => (chunk.map g).foldl step out) init =
        (ll.flatten.map g).foldl step init := by
  intro ll
  induction ll with
  | nil => intro init; rfl
  | cons c cs ih =>
    intro init
    have h1 : (c :: cs).flatten = c ++ cs.flatten := rfl
    rw [List.foldl_cons, h1, List.map_append, List.foldl_append]
    exact ih _

theorem fetch_financials_eq_flat {α : Type} (env : String → Option (YTicker α))
    (falsy : α → Bool) (symbols : List String) :
    fetch_financials env falsy symbols =
      (symbols.map pyUpper).foldl
        (fun out sym => dictSet out sym (fetchOne env falsy sym)) [] := by
  unfold fetch_financials
  rw [foldl_map_join pyUpper
    (fun out sym => dictSet out sym (fetchOne env falsy sym)) (chunksOf 50 symbols) [],
    chunksOf_join 50 symbols]

theorem dictGet_dictSet {β : Type} (m : List (String × β)) (k k' : String) (v : β) :
    dictGet (dictSet m k v) k' = if k' = k then some v else dictGet m k' := by
  induction m with
  | nil =>
    by_cases hk : k' = k
    · subst hk
      rw [if_pos rfl]
      unfold dictSet dictGet
      rw [List.find?_cons]
      simp only [beq_self_eq_true, Option.map_some']
    · rw [if_neg hk]
      unfold dictSet dictGet
      rw [List.find?_cons]
      have h1 : ((k, v).1 == k') = false :=
        beq_eq_false_iff_ne.mpr (fun he => hk he.symm)
      simp [h1]
  | cons p rest ih =>
    unfold dictSet
    by_cases hp : (p.1 == k) = true
    · rw [if_pos hp]
      have hp1 : p.1 = k := eq_of_beq hp
      by_cases hk : k' = k
      · subst hk
        rw [if_pos rfl]
        unfold dictGet
        rw [List.find?_cons]
        simp only [beq_self_eq_true, Option.map_some']
      · rw [if_neg hk]
        unfold dictGet
        rw [List.find?_cons, List.find?_cons]
        have h1 : ((k, v).1 == k') = false :=
          beq_eq_false_iff_ne.mpr (fun he => hk he.symm)
        have h2 : (p.1 == k') = false := by
          rw [hp1]
          exact beq_eq_false_iff_ne.mpr (fun he => hk he.symm)
        simp only [h1, h2]
    · rw [if_neg hp]
      by_cases hpk' : (p.1 == k') = true
      · have hp1 : p.1 = k' := eq_of_beq hpk'
        have hk : k' ≠ k := by
          intro he
          rw [he] at hp1
          rw [hp1, beq_self_eq_true] at hp
          exact hp rfl
        rw [if_neg hk]
        unfold dictGet
        rw [List.find?_cons, List.find?_cons]
        simp only [hpk', Option.map_some']
      · have h2 : (p.1 == k') = false := Bool.eq_false_iff.mpr hpk'
        unfold dictGet
        rw [List.find?_cons]
        simp only [h2]
        rw [show (List.find? (fun p => p.1 == k') (p :: rest)).map (fun p => p.2) =
            dictGet (p :: rest) k' from rfl]
        rw [show dictGet (p :: rest) k' = dictGet rest k' by
          unfold dictGet
          rw [List.find?_cons]
          simp only [h2]]
        exact ih

theorem foldl_dictSet_lookup {β : Type} (g : String → β) :
    ∀ (l : List String) (out : List (String × β)) (k : String),
      dictGet (l.foldl (fun o s => dictSet o s (g s)) out) k =
        if k ∈ l then some (g k) else dictGet out k := by
  intro l
  induction l with
  | nil =>
    intro out k
    rw [if_neg (List.not_mem_nil k)]
    rfl
  | cons a l ih =>
    intro out k
    rw [List.foldl_cons, ih]
    by_cases hl : k ∈ l
    · rw [if_pos hl, if_pos (show k ∈ a :: l from List.Mem.tail _ hl)]
    · rw [if_neg hl, dictGet_dictSet]
      by_cases hk : k = a
      · subst hk
        rw [if_pos rfl, if_pos (show k ∈ k :: l from List.mem_cons_self _ _)]
      · rw [if_neg hk, if_neg (by
          intro hc
          rcases List.mem_cons.mp hc with h | h
          · exact hk h
          · exact hl h)]

theorem mem_dictSet {β : Type} {m : List (String × β)} {k : String} {v : β}
    {p : String × β} (h : p ∈ dictSet m k v) : p = (k, v) ∨ p ∈ m := by
  induction m with
  | nil =>
    unfold dictSet at h
    rcases List.mem_cons.mp h with h' | h'
    · exact Or.inl h'
    · cases h'
  | cons q rest ih =>
    unfold dictSet at h
    by_cases hq : (q.1 == k) = true
    · rw [if_pos hq] at h
      rcases List.mem_cons.mp h with h' | h'
      · exact Or.inl h'
      · exact Or.inr (List.Mem.tail _ h')
    · rw [if_neg hq] at h
      rcases List.mem_cons.mp h with h' | h'
      · exact Or.inr (h' ▸ List.mem_cons_self _ _)
      · rcases ih h' with h'' | h''
        · exact Or.inl h''
        · exact Or.inr (List.Mem.tail _ h'')

theorem foldl_dictSet_entries {β : Type} (g : String → β) :
    ∀ (l : List String) (out : List (String × β)),
      (∀ p ∈ out, p.2 = g p.1) →
      ∀ p ∈ l.foldl (fun o s => dictSet o s (g s)) out, p.2 = g p.1 := by
  intro l
  induction l with
  | nil => intro out hout p hp; exact hout p hp
  | cons a l ih =>
    intro out hout p hp
    rw [List.foldl_cons] at hp
    refine ih (dictSet out a (g a)) ?_ p hp
    intro q hq
    rcases mem_dictSet hq with h | h
    · rw [h]
    · exact hout q h

theorem merge_enrichment_skips {α : Type} (k : String) :
    ∀ (results : List (String × Option (FinRec α)))
      (store : List (String × FinRec α)) (cnt : Nat × Nat),
      (∀ v, (k, v) ∈ results → v = none) →
      dictGet (results.foldl
        (fun acc p =>
          match p.2 with
          | none => (acc.1, acc.2.1, acc.2.2 + 1)
          | some r => (dictSet acc.1 p.1 r, acc.2.1 + 1, acc.2.2))
        (store, cnt)).1 k = dictGet store k := by
  intro results
  induction results with
  | nil => intro store cnt h; rfl
  | cons p rest ih =>
    intro store cnt h
    cases hp : p.2 with
    | none =>
      rw [List.foldl_cons]
      simp only [hp]
      exact ih store (cnt.1, cnt.2 + 1) (fun v hv => h v (List.Mem.tail _ hv))
    | some r =>
      rw [List.foldl_cons]
      simp only [hp]
      have hne : p.1 ≠ k := by
        intro he
        have hmem : (k, p.2) ∈ p :: rest := by
          rw [← he]
          exact List.mem_cons_self _ _
        have hv := h p.2 hmem
        rw [hp] at hv
        exact Option.noConfusion hv
      rw [ih (dictSet store p.1 r) (cnt.1 + 1, cnt.2)
        (fun v hv => h v (List.Mem.tail _ hv))]
      rw [dictGet_dictSet]
      rw [if_neg (fun he => hne he.symm)]

/-- C8: every requested symbol gets exactly one entry in the enrichment fetch
result, keyed by its upper-cased form and carrying `fetchOne`'s outcome for
it — so a per-symbol failure never aborts the rest of the batch; a symbol
whose fetch raises, or whose price and market capitalization are both
missing, resolves to absent (`none` — no partial record); and merging a
result map whose entries for the symbol are all absent leaves the prior
enrichment store untouched at that symbol (no tombstone stored). -/
theorem c8_enrichment_per_symbol {α : Type} (env : String → Option (YTicker α))
    (falsy : α → Bool) (symbols : List String) (sym : String)
    (hmem : sym ∈ symbols) :
    dictGet (fetch_financials env falsy symbols) (pyUpper sym) =
      some (fetchOne env falsy (pyUpper sym)) ∧
    (env (pyUpper sym) = none → fetchOne env falsy (pyUpper sym) = none) ∧
    (∀ t, env (pyUpper sym) = some t →
      pyOr falsy (fastPrice t) t.info.currentPrice = none →
      pyOr falsy (fastMcap t) t.info.marketCap = none →
      fetchOne env falsy (pyUpper sym) = none) ∧
    (∀ store : List (String × FinRec α),
      fetchOne env falsy (pyUpper sym) = none →
      dictGet (merge_enrichment store (fetch_financials env falsy symbols)).1
        (pyUpper sym) = dictGet store (pyUpper sym)) := by
  have hflat := fetch_financials_eq_flat env falsy symbols
  refine ⟨?_, ?_, ?_, ?_⟩
  · rw [hflat, foldl_dictSet_lookup (fun s => fetchOne env falsy s)
      (symbols.map pyUpper) [] (pyUpper sym)]
    rw [if_pos (List.mem_map.mpr ⟨sym, hmem, rfl⟩)]
  · intro he
    unfold fetchOne
    rw [he]
  · intro t ht hp hm
    unfold fetchOne
    rw [ht]
    simp only [hp, hm]
  · intro store habs
    unfold merge_enrichment
    apply merge_enrichment_skips
    intro v hv
    have hent := foldl_dictSet_entries (fun s => fetchOne env falsy s)
      (symbols.map pyUpper) [] (by intro p hp; cases hp) (pyUpper sym, v)
      (by rw [← hflat]; exact hv)
    have hv2 : v = fetchOne env falsy (pyUpper sym) := hent
    rw [hv2, habs]

def c8info0 : YInfo Int :=
  { currentPrice := none, marketCap := some 5, trailingPE := none,
    forwardPE := none, dividendYield := none, beta := none,
    fiftyTwoWeekHigh := none, fiftyTwoWeekLow := none, sharesOutstanding := none }

def c8env : String → Option (YTicker Int) :=
  fun s => if s == "AAPL" then
      some { fast := some (some 100, none), info := c8info0 }
    else none

def c8falsy : Int → Bool := fun x => x == 0

def c8store : List (String × FinRec Int) :=
  [("XYZ", { price := some 1, market_cap := some 2, trailing_pe := none,
             forward_pe := none, dividend_yield := none, beta := none,
             high_52w := none, low_52w := none, shares_outstanding := none })]

/-- Witness for C8: in a two-symbol batch where the `XYZ` fetch raises, the
failed symbol maps to absent while `AAPL` still gets its record (the batch is
not aborted), and merging leaves the prior `XYZ` enrichment record untouched. -/
theorem c8_enrichment_per_symbol_witness :
    ("xyz" ∈ ["aapl", "xyz"]) ∧
    dictGet (fetch_financials c8env c8falsy ["aapl", "xyz"]) (pyUpper "xyz") =
      some (fetchOne c8env c8falsy (pyUpper "xyz")) ∧
    fetchOne c8env c8falsy (pyUpper "xyz") = none ∧
    dictGet (merge_enrichment c8store
        (fetch_financials c8env c8falsy ["aapl", "xyz"])).1 (pyUpper "xyz") =
      dictGet c8store (pyUpper "xyz") ∧
    (∃ r, dictGet (fetch_financials c8env c8falsy ["aapl", "xyz"]) (pyUpper "aapl") =
      some (some r)) :=
  ⟨by decide,
   (c8_enrichment_per_symbol c8env c8falsy ["aapl", "xyz"] "xyz" (by decide)).1,
   by decide,
   (c8_enrichment_per_symbol c8env c8falsy ["aapl", "xyz"] "xyz" (by decide)).2.2.2
     c8store (by decide),
   ⟨{ price := some 100, market_cap := some 5, trailing_pe := none,
      forward_pe := none, dividend_yield := none, beta := none, high_52w := none,
      low_52w := none, shares_outstanding := none }, by decide⟩⟩
